import Mathlib

/-!
Shallow embedding of `pydmps/dmp_rhythmic.py` (class `DMPs_rhythmic`).

Numpy float arrays are modelled as `List ℝ` (2-D arrays as `List (List ℝ)`),
NaN entries of a demonstrated trajectory as `none : Option ℝ`, and a raised
exception (numpy's `ValueError` on an empty reduction) as `none` in an
`Option` result.  The canonical-system rollout `self.cs.rollout()` is produced
by the base class, outside this file's scope, so `gen_weights` is parametrised
over the phase track it returns.
-/

namespace Pydmps

/-- Embedding of `np.linspace(a, b, num)`: `num` evenly spaced values from `a` to `b`
inclusive; element `i` is `a + (b - a) * i / (num - 1)`. -/
noncomputable def linspace (a b : ℝ) (num : ℕ) : List ℝ :=
  (List.range num).map (fun (i : ℕ) => a + (b - a) * (i : ℝ) / ((num : ℝ) - 1))

/-- Embedding of `gen_centers`: `c = np.linspace(0, 2*np.pi, self.n_bfs + 1)` then the
Python slice `c[0:-1]`, i.e. all but the last element. -/
noncomputable def gen_centers (n_bfs : ℕ) : List ℝ :=
  (linspace 0 (2 * Real.pi) (n_bfs + 1)).take n_bfs

/-- Widths: `self.h = np.ones(self.n_bfs) * self.n_bfs`. -/
noncomputable def h (n_bfs : ℕ) : List ℝ :=
  List.replicate n_bfs (n_bfs : ℝ)

/-- Embedding of `gen_psi` on a scalar canonical-system state `x`:
`np.exp(self.h * (np.cos(x - self.c) - 1))`, an array of length `n_bfs`
computed elementwise over the stored arrays `h` and `c`. -/
noncomputable def gen_psi (n_bfs : ℕ) (x : ℝ) : List ℝ :=
  (List.range n_bfs).map (fun b =>
    Real.exp ((h n_bfs).getD b 0 * (Real.cos (x - (gen_centers n_bfs).getD b 0) - 1)))

/-- Embedding of `gen_psi` on a phase track (numpy broadcasting `x[:, None]` against `c`):
one activation row per phase sample. -/
noncomputable def gen_psi_track (n_bfs : ℕ) (xs : List ℝ) : List (List ℝ) :=
  xs.map (gen_psi n_bfs)

/-- Embedding of `gen_front_term` on a scalar phase: returns `1` (placeholder; the rhythmic
front term is non-diminishing). -/
def gen_front_term (x : ℝ) (dmp_num : ℕ) : ℝ := 1

/-- Embedding of `gen_front_term` on an `np.ndarray` phase track: `np.ones(x.shape)`. -/
def gen_front_term_track (xs : List ℝ) (dmp_num : ℕ) : List ℝ :=
  xs.map (fun _ => (1 : ℝ))

/-- Embedding of `~np.isnan(y_des[n])` followed by fancy indexing: the non-NaN samples of
one dimension's row, in order. -/
def validSamples (row : List (Option ℝ)) : List ℝ :=
  row.filterMap id

/-- numpy's `.min()` reduction: `none` on an empty array (where numpy raises
`ValueError`). -/
def npmin : List ℝ → Option ℝ
  | [] => none
  | x :: xs => some (xs.foldl min x)

/-- numpy's `.max()` reduction: `none` on an empty array (where numpy raises
`ValueError`). -/
def npmax : List ℝ → Option ℝ
  | [] => none
  | x :: xs => some (xs.foldl max x)

/-- The body of `gen_goal`'s loop for one dimension:
`0.5 * (y_des[n, num_idx].min() + y_des[n, num_idx].max())`; `none` models the
`ValueError` numpy raises when `num_idx` selects nothing. -/
noncomputable def dim_goal (row : List (Option ℝ)) : Option ℝ :=
  match npmin (validSamples row), npmax (validSamples row) with
  | some mn, some mx => some (0.5 * (mn + mx))
  | _, _ => none

/-- Embedding of `gen_goal`: one goal value per dimension (row of `y_des`); the loop stops
with an exception (`none`) at the first dimension with no valid samples. -/
noncomputable def gen_goal : List (List (Option ℝ)) → Option (List ℝ)
  | [] => some []
  | row :: rest =>
    match dim_goal row, gen_goal rest with
    | some g, some gs => some (g :: gs)
    | _, _ => none

/-- Embedding of `np.dot` of two 1-D arrays: sum of elementwise products. -/
noncomputable def npdot (xs ys : List ℝ) : ℝ :=
  ((xs.zip ys).map (fun p => p.1 * p.2)).sum

/-- Column `j` of a 2-D array stored as a list of rows (`m[:, j]`). -/
def column (m : List (List ℝ)) (j : ℕ) : List ℝ :=
  m.map (fun row => row.getD j 0)

/-- Embedding of `gen_weights`: for every dimension `d` and basis index `b`,
`w[d, b] = np.dot(psi_track[:, b], f_target[:, d]) / (np.sum(psi_track[:, b]) + 1e-10)`
where `psi_track = gen_psi(cs.rollout())`; the rollout `x_track` is an input
here since the canonical system lives in the base class. -/
noncomputable def gen_weights (n_dmps n_bfs : ℕ) (x_track : List ℝ)
    (f_target : List (List ℝ)) : List (List ℝ) :=
  let psi_track := gen_psi_track n_bfs x_track
  (List.range n_dmps).map (fun d =>
    (List.range n_bfs).map (fun b =>
      npdot (column psi_track b) (column f_target d) /
        ((column psi_track b).sum + 1e-10)))

/-! ### Helper lemmas -/

lemma getD_map_range (f : ℕ → ℝ) (n i : ℕ) (hi : i < n) :
    ((List.range n).map f).getD i 0 = f i := by
  rw [List.getD_eq_getElem?_getD, List.getElem?_map, List.getElem?_range hi]
  rfl

lemma gen_centers_length (n : ℕ) : (gen_centers n).length = n := by
  rw [gen_centers, List.length_take, linspace, List.length_map, List.length_range]
  omega

lemma gen_centers_getD (n b : ℕ) (hb : b < n) :
    (gen_centers n).getD b 0 = 2 * Real.pi * b / n := by
  rw [gen_centers, List.getD_eq_getElem?_getD, List.getElem?_take_of_lt hb,
    linspace, List.getElem?_map, List.getElem?_range (by omega : b < n + 1)]
  simp only [Option.map_some', Option.getD_some]
  push_cast
  ring

lemma h_getD (n b : ℕ) (hb : b < n) : (h n).getD b 0 = (n : ℝ) := by
  rw [h, List.getD_eq_getElem?_getD, List.getElem?_replicate, if_pos hb]
  rfl

lemma gen_psi_getD (n b : ℕ) (x : ℝ) (hb : b < n) :
    (gen_psi n x).getD b 0 =
      Real.exp ((n : ℝ) * (Real.cos (x - 2 * Real.pi * b / n) - 1)) := by
  rw [gen_psi, getD_map_range _ _ _ hb, h_getD n b hb, gen_centers_getD n b hb]

lemma gen_psi_length (n : ℕ) (x : ℝ) : (gen_psi n x).length = n := by
  simp [gen_psi]

lemma getD_map_lt {α β : Type} (f : α → β) (l : List α) (t : ℕ) (ht : t < l.length)
    (d : α) (d' : β) : (l.map f).getD t d' = f (l.getD t d) := by
  rw [List.getD_eq_getElem?_getD, List.getElem?_map, List.getElem?_eq_getElem ht,
    List.getD_eq_getElem?_getD, List.getElem?_eq_getElem ht]
  rfl

lemma gen_psi_track_getD (n : ℕ) (xs : List ℝ) (t : ℕ) (ht : t < xs.length) :
    (gen_psi_track n xs).getD t [] = gen_psi n (xs.getD t 0) := by
  rw [gen_psi_track, getD_map_lt _ _ _ ht]

lemma list_sum_eq_range_sum (xs : List ℝ) :
    xs.sum = ∑ t ∈ Finset.range xs.length, xs.getD t 0 := by
  induction xs with
  | nil => simp
  | cons x xs ih =>
    rw [List.sum_cons, List.length_cons, Finset.sum_range_succ', ih]
    simp [List.getD_cons_succ, List.getD_cons_zero, add_comm]

lemma npdot_eq_range_sum (xs ys : List ℝ) (hlen : ys.length = xs.length) :
    npdot xs ys = ∑ t ∈ Finset.range xs.length, xs.getD t 0 * ys.getD t 0 := by
  induction xs generalizing ys with
  | nil => simp [npdot]
  | cons x xs ih =>
    cases ys with
    | nil => simp at hlen
    | cons y ys =>
      have hlen' : ys.length = xs.length := by simpa using hlen
      rw [List.length_cons, Finset.sum_range_succ']
      have : npdot (x :: xs) (y :: ys) = x * y + npdot xs ys := by
        simp [npdot, List.zip_cons_cons]
      rw [this, ih ys hlen']
      simp [List.getD_cons_succ, List.getD_cons_zero, add_comm]

lemma foldl_min_le_init (xs : List ℝ) (a : ℝ) : xs.foldl min a ≤ a := by
  induction xs generalizing a with
  | nil => simp
  | cons x xs ih =>
    calc (x :: xs).foldl min a = xs.foldl min (min a x) := rfl
    _ ≤ min a x := ih _
    _ ≤ a := min_le_left _ _

lemma init_le_foldl_max (xs : List ℝ) (a : ℝ) : a ≤ xs.foldl max a := by
  induction xs generalizing a with
  | nil => simp
  | cons x xs ih =>
    calc a ≤ max a x := le_max_left _ _
    _ ≤ xs.foldl max (max a x) := ih _
    _ = (x :: xs).foldl max a := rfl

/-- The per-dimension goal formula, expressed with defaults for the option
reductions: the value `gen_goal` produces for a dimension whose `validSamples`
are nonempty. -/
noncomputable def dim_goal_formula (row : List (Option ℝ)) : ℝ :=
  0.5 * ((npmin (validSamples row)).getD 0 + (npmax (validSamples row)).getD 0)

lemma dim_goal_of_valid (row : List (Option ℝ)) (hrow : validSamples row ≠ []) :
    dim_goal row = some (dim_goal_formula row) := by
  rcases hv : validSamples row with _ | ⟨x, xs⟩
  · exact absurd hv hrow
  · simp [dim_goal, dim_goal_formula, hv, npmin, npmax]

lemma gen_goal_of_valid (y_des : List (List (Option ℝ)))
    (hall : ∀ row ∈ y_des, validSamples row ≠ []) :
    gen_goal y_des = some (y_des.map dim_goal_formula) := by
  induction y_des with
  | nil => simp [gen_goal]
  | cons row rest ih =>
    have h1 : dim_goal row = some (dim_goal_formula row) :=
      dim_goal_of_valid row (hall row (List.mem_cons_self _ _))
    have h2 : gen_goal rest = some (rest.map dim_goal_formula) :=
      ih (fun r hr => hall r (List.mem_cons_of_mem _ hr))
    simp [gen_goal, h1, h2]

lemma getD_eq_getElem_of_lt {α : Type} (l : List α) (d : α) (i : ℕ)
    (hi : i < l.length) : l.getD i d = l[i] := by
  rw [List.getD_eq_getElem?_getD, List.getElem?_eq_getElem hi]
  rfl

/-! ### Claims -/

/-- C3: for every scalar phase `x` and basis index `b < n_bfs`, the rhythmic
basis activation computed by `gen_psi` equals `exp(h_b * (cos (x - c_b) - 1))`
with `c_b` the `b`-th stored center and `h_b` the `b`-th stored width; and for
a phase sequence of length `T` the result is an aligned `T × n_bfs` array of
these values. -/
theorem gen_psi_formula_and_shape (n_bfs : ℕ) (x : ℝ) (b : ℕ) (hb : b < n_bfs)
    (xs : List ℝ) :
    (gen_psi n_bfs x).getD b 0 =
      Real.exp ((h n_bfs).getD b 0 * (Real.cos (x - (gen_centers n_bfs).getD b 0) - 1)) ∧
    (gen_psi_track n_bfs xs).length = xs.length ∧
    (∀ row ∈ gen_psi_track n_bfs xs, row.length = n_bfs) ∧
    (∀ t, t < xs.length →
      ((gen_psi_track n_bfs xs).getD t []).getD b 0 =
        Real.exp ((n_bfs : ℝ) *
          (Real.cos (xs.getD t 0 - 2 * Real.pi * b / n_bfs) - 1))) := by
  refine ⟨?_, ?_, ?_, ?_⟩
  · rw [gen_psi, getD_map_range _ _ _ hb]
  · simp [gen_psi_track]
  · intro row hrow
    rw [gen_psi_track] at hrow
    obtain ⟨x', _, rfl⟩ := List.mem_map.mp hrow
    exact gen_psi_length _ _
  · intro t ht
    rw [gen_psi_track_getD _ _ _ ht, gen_psi_getD _ _ _ hb]

/-- C3 witness at `n_bfs = 2`, `x = 0`, `b = 1`, `xs = [0, 1]`. -/
theorem gen_psi_formula_and_shape_witness :
    (1 < 2) ∧
    ((gen_psi 2 0).getD 1 0 =
      Real.exp ((h 2).getD 1 0 * (Real.cos (0 - (gen_centers 2).getD 1 0) - 1)) ∧
    (gen_psi_track 2 [0, 1]).length = ([0, 1] : List ℝ).length ∧
    (∀ row ∈ gen_psi_track 2 [0, 1], row.length = 2) ∧
    (∀ t, t < ([0, 1] : List ℝ).length →
      ((gen_psi_track 2 [0, 1]).getD t []).getD 1 0 =
        Real.exp (((2 : ℕ) : ℝ) *
          (Real.cos (([0, 1] : List ℝ).getD t 0 -
            2 * Real.pi * ((1 : ℕ) : ℝ) / ((2 : ℕ) : ℝ)) - 1)))) :=
  ⟨by norm_num, gen_psi_formula_and_shape 2 0 1 (by norm_num) [0, 1]⟩

/-- C5: the rhythmic basis activation is `2π`-periodic: for every phase `x`
and basis index `b < n_bfs`, `gen_psi (x + 2π)` agrees with `gen_psi x` at
index `b`. -/
theorem gen_psi_periodic (n_bfs : ℕ) (x : ℝ) (b : ℕ) (hb : b < n_bfs) :
    (gen_psi n_bfs (x + 2 * Real.pi)).getD b 0 = (gen_psi n_bfs x).getD b 0 := by
  rw [gen_psi_getD _ _ _ hb, gen_psi_getD _ _ _ hb]
  have : x + 2 * Real.pi - 2 * Real.pi * b / n_bfs =
      (x - 2 * Real.pi * b / n_bfs) + 2 * Real.pi := by ring
  rw [this, Real.cos_add_two_pi]

/-- C5 witness at `n_bfs = 1`, `x = 0`, `b = 0`. -/
theorem gen_psi_periodic_witness :
    (0 < 1) ∧ (gen_psi 1 (0 + 2 * Real.pi)).getD 0 0 = (gen_psi 1 0).getD 0 0 :=
  ⟨by norm_num, gen_psi_periodic 1 0 0 (by norm_num)⟩

/-- C6: after construction with `n_bfs ≥ 1` basis functions, `gen_centers`
produces exactly `n_bfs` centers, center `b` equals `b * 2π / n_bfs`, the
sequence is strictly increasing, and every center lies in `[0, 2π)`. -/
theorem gen_centers_spec (n_bfs : ℕ) (hn : 1 ≤ n_bfs) :
    (gen_centers n_bfs).length = n_bfs ∧
    (∀ b, b < n_bfs → (gen_centers n_bfs).getD b 0 = (b : ℝ) * (2 * Real.pi) / n_bfs) ∧
    (gen_centers n_bfs).Pairwise (· < ·) ∧
    (∀ cc ∈ gen_centers n_bfs, 0 ≤ cc ∧ cc < 2 * Real.pi) := by
  have hnR : (0 : ℝ) < n_bfs := by exact_mod_cast hn
  have hform : ∀ b, b < n_bfs →
      (gen_centers n_bfs).getD b 0 = (b : ℝ) * (2 * Real.pi) / n_bfs := by
    intro b hb
    rw [gen_centers_getD n_bfs b hb]
    ring
  refine ⟨gen_centers_length n_bfs, hform, ?_, ?_⟩
  · rw [List.pairwise_iff_getElem]
    intro i j hi hj hij
    rw [gen_centers_length] at hi hj
    rw [← getD_eq_getElem_of_lt _ 0 i (by rw [gen_centers_length]; exact hi),
      ← getD_eq_getElem_of_lt _ 0 j (by rw [gen_centers_length]; exact hj),
      hform i hi, hform j hj]
    have : (i : ℝ) * (2 * Real.pi) < (j : ℝ) * (2 * Real.pi) := by
      have hij' : (i : ℝ) < j := by exact_mod_cast hij
      exact mul_lt_mul_of_pos_right hij' Real.two_pi_pos
    exact (div_lt_div_iff_of_pos_right hnR).mpr this
  · intro cc hcc
    obtain ⟨b, hb, rfl⟩ := List.mem_iff_getElem.mp hcc
    rw [gen_centers_length] at hb
    rw [← getD_eq_getElem_of_lt _ 0 b (by rw [gen_centers_length]; exact hb),
      hform b hb]
    constructor
    · positivity
    · rw [div_lt_iff₀ hnR]
      have hb' : (b : ℝ) < n_bfs := by exact_mod_cast hb
      calc (b : ℝ) * (2 * Real.pi) < (n_bfs : ℝ) * (2 * Real.pi) :=
            mul_lt_mul_of_pos_right hb' Real.two_pi_pos
        _ = 2 * Real.pi * n_bfs := by ring

/-- C6 witness at `n_bfs = 3`. -/
theorem gen_centers_spec_witness :
    (1 ≤ 3) ∧
    ((gen_centers 3).length = 3 ∧
    (∀ b, b < 3 → (gen_centers 3).getD b 0 = (b : ℝ) * (2 * Real.pi) / 3) ∧
    (gen_centers 3).Pairwise (· < ·) ∧
    (∀ cc ∈ gen_centers 3, 0 ≤ cc ∧ cc < 2 * Real.pi)) :=
  ⟨by norm_num, gen_centers_spec 3 (by norm_num)⟩

/-- C9: the rhythmic front term is the constant `1` for every scalar phase and
dmp index, and an all-ones array of the input's shape for a phase track. -/
theorem gen_front_term_is_one (x : ℝ) (dmp_num : ℕ) (xs : List ℝ) :
    gen_front_term x dmp_num = 1 ∧
    gen_front_term_track xs dmp_num = List.replicate xs.length 1 := by
  constructor
  · rfl
  · induction xs with
    | nil => rfl
    | cons y ys ih =>
      simp only [gen_front_term_track, List.map_cons, List.length_cons,
        List.replicate_succ]
      rw [gen_front_term_track] at ih
      rw [ih]

/-- C7: broadcast consistency of `gen_psi`: for a phase track `xs` and an
index `i < T` with `xs[i] = v`, row `i` of `gen_psi` on the track equals
`gen_psi` on the scalar `v`, and the track output has aligned shape
`T × n_bfs`. -/
theorem gen_psi_broadcast (n_bfs : ℕ) (xs : List ℝ) (v : ℝ) (i : ℕ)
    (hi : i < xs.length) (hv : xs.getD i 0 = v) :
    (gen_psi_track n_bfs xs).getD i [] = gen_psi n_bfs v ∧
    (gen_psi_track n_bfs xs).length = xs.length ∧
    ∀ row ∈ gen_psi_track n_bfs xs, row.length = n_bfs := by
  refine ⟨?_, by simp [gen_psi_track], ?_⟩
  · rw [gen_psi_track_getD _ _ _ hi, hv]
  · intro row hrow
    rw [gen_psi_track] at hrow
    obtain ⟨x', _, rfl⟩ := List.mem_map.mp hrow
    exact gen_psi_length _ _

/-- C7 witness at `n_bfs = 2`, `xs = [3.5, 7]`, `v = 7`, `i = 1`. -/
theorem gen_psi_broadcast_witness :
    (1 < ([3.5, 7] : List ℝ).length) ∧
    ((gen_psi_track 2 [3.5, 7]).getD 1 [] = gen_psi 2 7 ∧
    (gen_psi_track 2 [3.5, 7]).length = ([3.5, 7] : List ℝ).length ∧
    ∀ row ∈ gen_psi_track 2 [3.5, 7], row.length = 2) :=
  ⟨by norm_num, gen_psi_broadcast 2 [3.5, 7] 7 1 (by norm_num) rfl⟩

/-- C4 counterexample: the activation of basis `0` (center `0`) equals `1`
also at the phase `2π`, which is not the center — so "equal to 1 at no other
phase value than the center" fails. -/
theorem gen_psi_peak_not_unique :
    (gen_psi 1 (2 * Real.pi)).getD 0 0 = 1 ∧
    (2 * Real.pi : ℝ) ≠ (gen_centers 1).getD 0 0 := by
  constructor
  · rw [gen_psi_getD 1 0 _ (by norm_num)]
    norm_num [Real.cos_two_pi]
  · rw [gen_centers_getD 1 0 (by norm_num)]
    norm_num [Real.pi_ne_zero]

/-- C4 amended: for every phase `x` and basis index `b < n_bfs`, the
activation lies in `(0, 1]`, and equals `1` exactly when `x` differs from the
center `c_b` by an integer multiple of `2π` (in particular at `x = c_b`). -/
theorem gen_psi_range_and_peak (n_bfs : ℕ) (x : ℝ) (b : ℕ) (hb : b < n_bfs) :
    0 < (gen_psi n_bfs x).getD b 0 ∧ (gen_psi n_bfs x).getD b 0 ≤ 1 ∧
    ((gen_psi n_bfs x).getD b 0 = 1 ↔
      ∃ k : ℤ, x = (gen_centers n_bfs).getD b 0 + (k : ℝ) * (2 * Real.pi)) := by
  have hnR : (0 : ℝ) < n_bfs := by
    have : 0 < n_bfs := Nat.pos_of_ne_zero (by omega)
    exact_mod_cast this
  rw [gen_psi_getD _ _ _ hb, gen_centers_getD _ _ hb]
  refine ⟨Real.exp_pos _, ?_, ?_⟩
  · rw [Real.exp_le_one_iff]
    have hcos : Real.cos (x - 2 * Real.pi * b / n_bfs) - 1 ≤ 0 :=
      sub_nonpos.mpr (Real.cos_le_one _)
    exact mul_nonpos_of_nonneg_of_nonpos (le_of_lt hnR) hcos
  · rw [Real.exp_eq_one_iff, mul_eq_zero, or_iff_right (ne_of_gt hnR),
      sub_eq_zero, Real.cos_eq_one_iff]
    constructor
    · rintro ⟨k, hk⟩
      exact ⟨k, by linarith⟩
    · rintro ⟨k, hk⟩
      exact ⟨k, by rw [hk]; ring⟩

/-- C4 amended witness at `n_bfs = 1`, `x = 0`, `b = 0`. -/
theorem gen_psi_range_and_peak_witness :
    (0 < 1) ∧
    (0 < (gen_psi 1 0).getD 0 0 ∧ (gen_psi 1 0).getD 0 0 ≤ 1 ∧
    ((gen_psi 1 0).getD 0 0 = 1 ↔
      ∃ k : ℤ, (0 : ℝ) = (gen_centers 1).getD 0 0 + (k : ℝ) * (2 * Real.pi))) :=
  ⟨by norm_num, gen_psi_range_and_peak 1 0 0 (by norm_num)⟩

/-- C2: when every dimension of the demonstrated trajectory has at least one
non-NaN sample, `gen_goal` returns, for each dimension, exactly
`0.5 * (min + max)` over that dimension's non-NaN samples. -/
theorem gen_goal_is_midrange (y_des : List (List (Option ℝ)))
    (hall : ∀ row ∈ y_des, validSamples row ≠ []) :
    gen_goal y_des = some (y_des.map (fun row =>
      0.5 * ((npmin (validSamples row)).getD 0 + (npmax (validSamples row)).getD 0))) :=
  gen_goal_of_valid y_des hall

/-- C2 witness: on the one-dimensional trajectory `[0, 0, 1, 1]` the goal is
`0.5`, and on `[0, NaN, 1, NaN]` it is also `0.5`, NaN entries ignored. -/
theorem gen_goal_is_midrange_witness :
    (∀ row ∈ [[some (0 : ℝ), some 0, some 1, some 1]], validSamples row ≠ []) ∧
    gen_goal [[some (0 : ℝ), some 0, some 1, some 1]] = some [0.5] ∧
    (∀ row ∈ [[some (0 : ℝ), none, some 1, none]], validSamples row ≠ []) ∧
    gen_goal [[some (0 : ℝ), none, some 1, none]] = some [0.5] := by
  have hall1 : ∀ row ∈ [[some (0 : ℝ), some 0, some 1, some 1]],
      validSamples row ≠ [] := by
    intro row hrow
    simp only [List.mem_singleton] at hrow
    subst hrow
    simp [validSamples]
  have hall2 : ∀ row ∈ [[some (0 : ℝ), none, some 1, none]],
      validSamples row ≠ [] := by
    intro row hrow
    simp only [List.mem_singleton] at hrow
    subst hrow
    simp [validSamples]
  have h1 := gen_goal_is_midrange [[some (0 : ℝ), some 0, some 1, some 1]] hall1
  have h2 := gen_goal_is_midrange [[some (0 : ℝ), none, some 1, none]] hall2
  refine ⟨hall1, ?_, hall2, ?_⟩
  · rw [h1]
    have hv : validSamples [some (0 : ℝ), some 0, some 1, some 1] = [0, 0, 1, 1] := rfl
    simp only [List.map_cons, List.map_nil, hv, npmin, npmax, Option.getD_some,
      List.foldl_cons, List.foldl_nil]
    norm_num [min_def, max_def]
  · rw [h2]
    have hv : validSamples [some (0 : ℝ), none, some 1, none] = [0, 1] := rfl
    simp only [List.map_cons, List.map_nil, hv, npmin, npmax, Option.getD_some,
      List.foldl_cons, List.foldl_nil]
    norm_num [min_def, max_def]

/-- C8: if some dimension of the demonstrated trajectory has zero valid
(non-NaN) samples, `gen_goal` fails (numpy raises `ValueError` on the empty
`.min()` reduction, modelled as `none`) instead of returning a goal vector. -/
theorem gen_goal_fails_on_empty_dim (y_des : List (List (Option ℝ)))
    (hbad : ∃ row ∈ y_des, validSamples row = []) :
    gen_goal y_des = none := by
  induction y_des with
  | nil => simp at hbad
  | cons row rest ih =>
    obtain ⟨r, hr, hrv⟩ := hbad
    rcases List.mem_cons.mp hr with rfl | hr'
    · have hd : dim_goal r = none := by
        rw [dim_goal, hrv]
        rfl
      cases hg : gen_goal rest <;> simp [gen_goal, hd, hg]
    · have hrest : gen_goal rest = none := ih ⟨r, hr', hrv⟩
      cases hd : dim_goal row <;> simp [gen_goal, hd, hrest]

/-- C8 witness: a trajectory whose single dimension is all NaN. -/
theorem gen_goal_fails_on_empty_dim_witness :
    (∃ row ∈ [[(none : Option ℝ), none]], validSamples row = []) ∧
    gen_goal [[(none : Option ℝ), none]] = none :=
  ⟨⟨[none, none], by simp, rfl⟩,
    gen_goal_fails_on_empty_dim [[(none : Option ℝ), none]]
      ⟨[none, none], by simp, rfl⟩⟩

/-- C10: for any demonstrated trajectory whose dimensions all have valid
samples, each dimension's estimated goal lies within the closed interval
`[min, max]` of that dimension's valid samples. -/
theorem gen_goal_within_observed_range (y_des : List (List (Option ℝ)))
    (hall : ∀ row ∈ y_des, validSamples row ≠ []) (n : ℕ) (hn : n < y_des.length)
    (gs : List ℝ) (hgs : gen_goal y_des = some gs) :
    (npmin (validSamples (y_des.getD n []))).getD 0 ≤ gs.getD n 0 ∧
    gs.getD n 0 ≤ (npmax (validSamples (y_des.getD n []))).getD 0 := by
  rw [gen_goal_of_valid y_des hall] at hgs
  have hgs' : gs = y_des.map dim_goal_formula := by
    exact (Option.some_injective _ hgs).symm
  subst hgs'
  rw [getD_map_lt dim_goal_formula y_des n hn []]
  set row := y_des.getD n [] with hrow
  have hmem : row ∈ y_des := by
    rw [hrow, getD_eq_getElem_of_lt _ _ _ hn]
    exact List.getElem_mem hn
  have hne : validSamples row ≠ [] := hall row hmem
  rcases hv : validSamples row with _ | ⟨x, xs⟩
  · exact absurd hv hne
  · simp only [dim_goal_formula, hv, npmin, npmax, Option.getD_some]
    have h1 : xs.foldl min x ≤ x := foldl_min_le_init xs x
    have h2 : x ≤ xs.foldl max x := init_le_foldl_max xs x
    constructor <;> linarith

/-- C10 witness on the trajectory `[[2, NaN, 4]]` at dimension `0`. -/
theorem gen_goal_within_observed_range_witness :
    (∀ row ∈ [[some (2 : ℝ), none, some 4]], validSamples row ≠ []) ∧
    (0 < ([[some (2 : ℝ), none, some 4]] : List (List (Option ℝ))).length) ∧
    gen_goal [[some (2 : ℝ), none, some 4]] = some [3] ∧
    ((npmin (validSamples (([[some (2 : ℝ), none, some 4]] :
        List (List (Option ℝ))).getD 0 []))).getD 0 ≤ ([(3 : ℝ)]).getD 0 0 ∧
      ([(3 : ℝ)]).getD 0 0 ≤
        (npmax (validSamples (([[some (2 : ℝ), none, some 4]] :
          List (List (Option ℝ))).getD 0 []))).getD 0) := by
  have hall : ∀ row ∈ [[some (2 : ℝ), none, some 4]], validSamples row ≠ [] := by
    intro row hrow
    simp only [List.mem_singleton] at hrow
    subst hrow
    simp [validSamples]
  have hgoal : gen_goal [[some (2 : ℝ), none, some 4]] = some [3] := by
    rw [gen_goal_of_valid _ hall]
    have hv : validSamples [some (2 : ℝ), none, some 4] = [2, 4] := rfl
    simp only [List.map_cons, List.map_nil, dim_goal_formula, hv, npmin, npmax,
      Option.getD_some, List.foldl_cons, List.foldl_nil]
    norm_num [min_def, max_def]
  exact ⟨hall, by norm_num,  hgoal,
    gen_goal_within_observed_range [[some (2 : ℝ), none, some 4]] hall 0
      (by norm_num) [3] hgoal⟩

lemma range_getD (n i : ℕ) (hi : i < n) : (List.range n).getD i 0 = i := by
  rw [List.getD_eq_getElem?_getD, List.getElem?_range hi]
  rfl

/-- C1: for every target forcing trajectory (shape `T × n_dmps`), every
rollout phase track of the same length, and every `d < n_dmps`, `b < n_bfs`,
the weight computed by `gen_weights` equals the closed-form weighted average
`Σ_t ψ_b(t) · f_target[t,d] / (Σ_t ψ_b(t) + 1e-10)` where `ψ_b(t)` is the
activation of basis `b` at the `t`-th rollout phase; and a basis whose total
activation over the rollout is zero yields a weight of exactly `0`. -/
theorem gen_weights_closed_form (n_dmps n_bfs : ℕ) (x_track : List ℝ)
    (f_target : List (List ℝ)) (d b : ℕ) (hd : d < n_dmps) (hb : b < n_bfs)
    (hT : f_target.length = x_track.length) :
    (((gen_weights n_dmps n_bfs x_track f_target).getD d []).getD b 0 =
      (∑ t ∈ Finset.range x_track.length,
          (gen_psi n_bfs (x_track.getD t 0)).getD b 0 * (f_target.getD t []).getD d 0) /
        ((∑ t ∈ Finset.range x_track.length,
            (gen_psi n_bfs (x_track.getD t 0)).getD b 0) + 1e-10)) ∧
    ((∑ t ∈ Finset.range x_track.length,
        (gen_psi n_bfs (x_track.getD t 0)).getD b 0) = 0 →
      ((gen_weights n_dmps n_bfs x_track f_target).getD d []).getD b 0 = 0) := by
  have houter :
      ((gen_weights n_dmps n_bfs x_track f_target).getD d []).getD b 0 =
        npdot (column (gen_psi_track n_bfs x_track) b) (column f_target d) /
          ((column (gen_psi_track n_bfs x_track) b).sum + 1e-10) := by
    simp only [gen_weights]
    rw [getD_map_lt _ (List.range n_dmps) d (by simpa using hd) 0 [],
      range_getD _ _ hd,
      getD_map_lt _ (List.range n_bfs) b (by simpa using hb) 0 0,
      range_getD _ _ hb]
  have hcol : column (gen_psi_track n_bfs x_track) b =
      x_track.map (fun x => (gen_psi n_bfs x).getD b 0) := by
    rw [column, gen_psi_track, List.map_map]
    rfl
  have hsum : (column (gen_psi_track n_bfs x_track) b).sum =
      ∑ t ∈ Finset.range x_track.length,
        (gen_psi n_bfs (x_track.getD t 0)).getD b 0 := by
    rw [hcol, list_sum_eq_range_sum, List.length_map]
    exact Finset.sum_congr rfl
      (fun t ht => getD_map_lt _ x_track t (Finset.mem_range.mp ht) 0 0)
  have hdot : npdot (column (gen_psi_track n_bfs x_track) b) (column f_target d) =
      ∑ t ∈ Finset.range x_track.length,
        (gen_psi n_bfs (x_track.getD t 0)).getD b 0 * (f_target.getD t []).getD d 0 := by
    rw [hcol, npdot_eq_range_sum _ _ (by simp [column, hT]), List.length_map]
    refine Finset.sum_congr rfl (fun t ht => ?_)
    have ht' := Finset.mem_range.mp ht
    rw [getD_map_lt _ x_track t ht' 0 0, column,
      getD_map_lt _ f_target t (by omega) [] 0]
  refine ⟨by rw [houter, hdot, hsum], ?_⟩
  intro hzero
  have hlen0 : x_track.length = 0 := by
    by_contra hne
    have hpos : ∀ t ∈ Finset.range x_track.length,
        0 < (gen_psi n_bfs (x_track.getD t 0)).getD b 0 := by
      intro t _
      rw [gen_psi_getD _ _ _ hb]
      exact Real.exp_pos _
    have hnonempty : (Finset.range x_track.length).Nonempty :=
      Finset.nonempty_range_iff.mpr hne
    exact (ne_of_gt (Finset.sum_pos hpos hnonempty)) hzero
  rw [houter, hdot, hsum, hzero, hlen0]
  simp

/-- C1 witness at `n_dmps = n_bfs = 1`, `x_track = [0]`, `f_target = [[2]]`,
`d = b = 0`. -/
theorem gen_weights_closed_form_witness :
    (0 < 1) ∧ (([[(2 : ℝ)]] : List (List ℝ)).length = ([(0 : ℝ)]).length) ∧
    ((((gen_weights 1 1 [(0 : ℝ)] [[(2 : ℝ)]]).getD 0 []).getD 0 0 =
      (∑ t ∈ Finset.range ([(0 : ℝ)]).length,
          (gen_psi 1 (([(0 : ℝ)]).getD t 0)).getD 0 0 *
            (([[(2 : ℝ)]] : List (List ℝ)).getD t []).getD 0 0) /
        ((∑ t ∈ Finset.range ([(0 : ℝ)]).length,
            (gen_psi 1 (([(0 : ℝ)]).getD t 0)).getD 0 0) + 1e-10)) ∧
    ((∑ t ∈ Finset.range ([(0 : ℝ)]).length,
        (gen_psi 1 (([(0 : ℝ)]).getD t 0)).getD 0 0) = 0 →
      (((gen_weights 1 1 [(0 : ℝ)] [[(2 : ℝ)]]).getD 0 []).getD 0 0 = 0))) :=
  ⟨by norm_num, rfl,
    gen_weights_closed_form 1 1 [(0 : ℝ)] [[(2 : ℝ)]] 0 0 (by norm_num) (by norm_num) rfl⟩

end Pydmps
